import Mathlib

/-!
# Verification of the obsidian-task-panel parsing core

Shallow embedding of `src/taskParser.ts` and the toggle operation of
`src/TaskPanelView.ts`, together with proofs of the specified properties.

Strings are modelled as lists of characters; line numbers and columns as
naturals; the sentinel heading line `-1` forces `headingLine : Int`.
-/

namespace TaskPanel

/-- A heading descriptor as delivered by the metadata cache
(`HeadingCache` in the source, with `position.start.line` flattened to
`startLine`). -/
structure HeadingCache where
  heading : String
  startLine : Nat
deriving DecidableEq, Repr

/-- Embedding of the binary-search loop of `findParentHeading`
(`taskParser.ts` lines 42-49).  `getH hs i` models the (checked) index
access `headings[i]!`. -/
def getH (hs : List HeadingCache) (i : Nat) : HeadingCache :=
  hs.getD i ⟨"", 0⟩

/-- The `while (lo < hi)` loop of the binary search.  `Math.ceil((lo + hi
+ 1) / 2)` on naturals is `(lo + hi + 2) / 2`. -/
def fphLoop (line : Nat) (hs : List HeadingCache) (lo hi : Nat) : Nat :=
  if h : lo < hi then
    if (getH hs ((lo + hi + 2) / 2)).startLine ≤ line then
      fphLoop line hs ((lo + hi + 2) / 2) hi
    else
      fphLoop line hs lo ((lo + hi + 2) / 2 - 1)
  else lo
termination_by hi - lo
decreasing_by
  · omega
  · omega

/-- `findParentHeading` (current version, `taskParser.ts` lines 30-53):
binary search for the last heading at or before `line`. -/
def findParentHeading (line : Nat) (headings : List HeadingCache) :
    Option (String × Nat) :=
  if headings.length = 0 then none
  else if line < (getH headings 0).startLine then none
  else
    let lo := fphLoop line headings 0 (headings.length - 1)
    some ((getH headings lo).heading, (getH headings lo).startLine)

/-- The linear-scan `findParentHeading` of the earlier version of the same
module (`taskParser.ts` lines 202-215): walk the headings in order,
remembering the last one at or before `line`, stopping at the first one
past it. -/
def fphLinearGo (line : Nat) (acc : Option (String × Nat)) :
    List HeadingCache → Option (String × Nat)
  | [] => acc
  | h :: rest =>
    if h.startLine ≤ line then
      fphLinearGo line (some (h.heading, h.startLine)) rest
    else acc

/-- Earlier, linear-scan version of `findParentHeading`. -/
def findParentHeadingLinear (line : Nat) (headings : List HeadingCache) :
    Option (String × Nat) :=
  fphLinearGo line none headings

/-- Headings sorted ascending by `startLine` (the cache guarantee). -/
def SortedHeadings (hs : List HeadingCache) : Prop :=
  hs.Pairwise (fun a b => a.startLine ≤ b.startLine)

theorem getH_eq_getElem (hs : List HeadingCache) {i : Nat} (h : i < hs.length) :
    getH hs i = hs[i] :=
  List.getD_eq_getElem hs ⟨"", 0⟩ h

theorem sorted_le {hs : List HeadingCache} (hs_sorted : SortedHeadings hs)
    {i j : Nat} (hij : i ≤ j) (hj : j < hs.length) :
    (getH hs i).startLine ≤ (getH hs j).startLine := by
  have hi : i < hs.length := lt_of_le_of_lt hij hj
  rw [getH_eq_getElem hs hi, getH_eq_getElem hs hj]
  rcases Nat.eq_or_lt_of_le hij with rfl | hlt
  · exact le_refl _
  · exact (List.pairwise_iff_getElem.mp hs_sorted) i j hi hj hlt

/-- Loop invariant for the binary search: if the predicate
`startLine ≤ line` holds at `lo` and fails strictly beyond `hi`, the loop
returns the last index where it holds. -/
theorem fphLoop_spec (line : Nat) (hs : List HeadingCache)
    (hs_sorted : SortedHeadings hs) :
    ∀ d lo hi, hi - lo ≤ d → lo ≤ hi → hi < hs.length →
    (getH hs lo).startLine ≤ line →
    (∀ i, hi < i → i < hs.length → line < (getH hs i).startLine) →
    lo ≤ fphLoop line hs lo hi ∧ fphLoop line hs lo hi ≤ hi ∧
      (getH hs (fphLoop line hs lo hi)).startLine ≤ line ∧
      (∀ i, fphLoop line hs lo hi < i → i < hs.length →
        line < (getH hs i).startLine) := by
  intro d
  induction d with
  | zero =>
    intro lo hi hd hlohi hhi hlo hahead
    have heq : ¬ lo < hi := by omega
    rw [fphLoop, dif_neg heq]
    exact ⟨le_refl _, hlohi, hlo, fun i hi1 hi2 => hahead i (by omega) hi2⟩
  | succ d ih =>
    intro lo hi hd hlohi hhi hlo hahead
    by_cases hlt : lo < hi
    · have hmid1 : lo + 1 ≤ (lo + hi + 2) / 2 := by omega
      have hmid2 : (lo + hi + 2) / 2 ≤ hi := by omega
      rw [fphLoop, dif_pos hlt]
      by_cases hmidle : (getH hs ((lo + hi + 2) / 2)).startLine ≤ line
      · rw [if_pos hmidle]
        have hrec := ih ((lo + hi + 2) / 2) hi (by omega) (by omega) hhi
          hmidle hahead
        exact ⟨by omega, hrec.2.1, hrec.2.2⟩
      · rw [if_neg hmidle]
        have hahead' : ∀ i, (lo + hi + 2) / 2 - 1 < i → i < hs.length →
            line < (getH hs i).startLine := by
          intro i hi1 hi2
          by_cases hle : hi < i
          · exact hahead i hle hi2
          · have hmi : (lo + hi + 2) / 2 ≤ i := by omega
            have := sorted_le hs_sorted hmi hi2
            omega
        have hrec := ih lo ((lo + hi + 2) / 2 - 1) (by omega) (by omega)
          (by omega) hlo hahead'
        exact ⟨hrec.1, by omega, hrec.2.2.1, hrec.2.2.2⟩
    · rw [fphLoop, dif_neg hlt]
      exact ⟨le_refl _, hlohi, hlo, fun i hi1 hi2 => hahead i (by omega) hi2⟩

/-- **C2.** For sorted headings, `findParentHeading` returns `none` exactly
when every heading starts strictly after `line` (in particular when the
list is empty), and otherwise returns a heading whose `startLine` is the
greatest one `≤ line` (a heading exactly at `line` counts, since the
comparison is `≤`). -/
theorem findParentHeading_spec (line : Nat) (headings : List HeadingCache)
    (hs_sorted : SortedHeadings headings) :
    (findParentHeading line headings = none ↔
      ∀ h ∈ headings, line < h.startLine) ∧
    (∀ t l, findParentHeading line headings = some (t, l) →
      ∃ h ∈ headings, h.heading = t ∧ h.startLine = l ∧ l ≤ line ∧
        ∀ h' ∈ headings, h'.startLine ≤ line → h'.startLine ≤ l) := by
  by_cases hempty : headings.length = 0
  · rw [findParentHeading, if_pos hempty]
    constructor
    · simp only [true_iff]
      intro h hmem
      rw [List.length_eq_zero] at hempty
      simp [hempty] at hmem
    · intro t l h
      simp at h
  · by_cases hfirst : line < (getH headings 0).startLine
    · rw [findParentHeading, if_neg hempty, if_pos hfirst]
      constructor
      · simp only [true_iff]
        intro h hmem
        obtain ⟨i, hi, rfl⟩ := List.mem_iff_getElem.mp hmem
        have := sorted_le hs_sorted (Nat.zero_le i) hi
        rw [getH_eq_getElem headings hi] at this
        omega
      · intro t l h
        simp at h
    · have hlen : 0 < headings.length := Nat.pos_of_ne_zero hempty
      have hspec := fphLoop_spec line headings hs_sorted headings.length 0
        (headings.length - 1) (by omega) (by omega) (by omega) (by omega)
        (by intro i h1 h2; omega)
      rw [findParentHeading, if_neg hempty, if_neg hfirst]
      set r := fphLoop line headings 0 (headings.length - 1) with hr
      have hrlen : r < headings.length := by omega
      constructor
      · constructor
        · intro h; simp at h
        · intro hall
          have := hall (getH headings r) (by
            rw [getH_eq_getElem headings hrlen]; exact List.getElem_mem _)
          omega
      · intro t l h
        simp only [Option.some.injEq, Prod.mk.injEq] at h
        refine ⟨getH headings r, ?_, h.1, h.2, ?_, ?_⟩
        · rw [getH_eq_getElem headings hrlen]; exact List.getElem_mem _
        · rw [← h.2]; exact hspec.2.2.1
        · intro h' hmem hle
          obtain ⟨i, hi, rfl⟩ := List.mem_iff_getElem.mp hmem
          rw [← h.2]
          by_cases hir : i ≤ r
          · have := sorted_le hs_sorted hir hrlen
            rw [getH_eq_getElem headings hi] at this
            exact this
          · have := hspec.2.2.2 i (by omega) hi
            rw [getH_eq_getElem headings hi] at this
            omega

/-- Closed witness for `findParentHeading_spec` at a concrete sorted
heading list. -/
theorem findParentHeading_spec_witness :
    SortedHeadings [⟨"A", 0⟩, ⟨"B", 4⟩, ⟨"C", 9⟩] ∧
    ((findParentHeading 5 [⟨"A", 0⟩, ⟨"B", 4⟩, ⟨"C", 9⟩] = none ↔
      ∀ h ∈ [(⟨"A", 0⟩ : HeadingCache), ⟨"B", 4⟩, ⟨"C", 9⟩], 5 < h.startLine) ∧
    (∀ t l, findParentHeading 5 [⟨"A", 0⟩, ⟨"B", 4⟩, ⟨"C", 9⟩] = some (t, l) →
      ∃ h ∈ [(⟨"A", 0⟩ : HeadingCache), ⟨"B", 4⟩, ⟨"C", 9⟩],
        h.heading = t ∧ h.startLine = l ∧ l ≤ 5 ∧
        ∀ h' ∈ [(⟨"A", 0⟩ : HeadingCache), ⟨"B", 4⟩, ⟨"C", 9⟩],
          h'.startLine ≤ 5 → h'.startLine ≤ l)) :=
  ⟨by constructor <;> simp [SortedHeadings],
    findParentHeading_spec 5 [⟨"A", 0⟩, ⟨"B", 4⟩, ⟨"C", 9⟩]
      (by constructor <;> simp [SortedHeadings])⟩

theorem fphLinearGo_spec (line : Nat) :
    ∀ hs : List HeadingCache, SortedHeadings hs →
    ∀ r, r < hs.length → (getH hs r).startLine ≤ line →
    (∀ i, r < i → i < hs.length → line < (getH hs i).startLine) →
    ∀ acc, fphLinearGo line acc hs =
      some ((getH hs r).heading, (getH hs r).startLine) := by
  intro hs
  induction hs with
  | nil => intro _ r hr; simp at hr
  | cons h rest ih =>
    intro hsorted r hr hle hgt acc
    have hh0 : (getH (h :: rest) 0) = h := rfl
    have hhead : h.startLine ≤ line := by
      have := sorted_le hsorted (Nat.zero_le r) hr
      rw [hh0] at this; omega
    rw [fphLinearGo, if_pos hhead]
    match r with
    | 0 =>
      match rest with
      | [] => rfl
      | h2 :: rest2 =>
        have h1lt : line < (getH (h :: h2 :: rest2) 1).startLine := by
          exact hgt 1 (by omega) (by simp)
        have : ¬ h2.startLine ≤ line := by
          simp only [getH, List.getD_cons_succ, List.getD_cons_zero] at h1lt
          omega
        rw [fphLinearGo, if_neg this]
        rfl
    | r' + 1 =>
      have hrest : SortedHeadings rest := hsorted.of_cons
      have hr' : r' < rest.length := by simp at hr; omega
      have hle' : (getH rest r').startLine ≤ line := hle
      have hgt' : ∀ i, r' < i → i < rest.length →
          line < (getH rest i).startLine := by
        intro i hi1 hi2
        exact hgt (i + 1) (by omega) (by simp; omega)
      exact ih hrest r' hr' hle' hgt' _

/-- **C10.** For sorted headings the binary-search `findParentHeading` and
the earlier linear-scan version agree on every query line. -/
theorem findParentHeading_eq_linear (line : Nat) (headings : List HeadingCache)
    (hs_sorted : SortedHeadings headings) :
    findParentHeading line headings = findParentHeadingLinear line headings := by
  match headings with
  | [] => rfl
  | h :: rest =>
    by_cases hfirst : line < (getH (h :: rest) 0).startLine
    · have hlen : ¬ (h :: rest).length = 0 := by simp
      rw [findParentHeading, if_neg hlen, if_pos hfirst]
      have hh : ¬ h.startLine ≤ line := by
        have : getH (h :: rest) 0 = h := rfl
        rw [this] at hfirst; omega
      rw [findParentHeadingLinear, fphLinearGo, if_neg hh]
    · have hlen : ¬ (h :: rest).length = 0 := by simp
      rw [findParentHeading, if_neg hlen, if_neg hfirst]
      have hspec := fphLoop_spec line (h :: rest) hs_sorted (h :: rest).length 0
        ((h :: rest).length - 1) (by omega) (by simp) (by simp) (by omega)
        (by intro i h1 h2; omega)
      rw [findParentHeadingLinear,
        fphLinearGo_spec line (h :: rest) hs_sorted
          (fphLoop line (h :: rest) 0 ((h :: rest).length - 1))
          (by have := hspec.2.1; simp at this ⊢; omega)
          hspec.2.2.1 hspec.2.2.2 none]

/-- Closed witness for `findParentHeading_eq_linear` at a concrete sorted
heading list. -/
theorem findParentHeading_eq_linear_witness :
    SortedHeadings [⟨"A", 1⟩, ⟨"B", 3⟩] ∧
    findParentHeading 2 [⟨"A", 1⟩, ⟨"B", 3⟩] =
      findParentHeadingLinear 2 [⟨"A", 1⟩, ⟨"B", 3⟩] :=
  ⟨by simp [SortedHeadings],
    findParentHeading_eq_linear 2 [⟨"A", 1⟩, ⟨"B", 3⟩] (by simp [SortedHeadings])⟩

/-! ## The task data model and the tree builder -/

/-- One checkbox list item, as produced by the parse step (the `children`
field of the source's `Task` interface lives in `TaskTree` below, since
the builder is what fills it in). -/
structure Task where
  text : List Char
  line : Nat
  completed : Bool
  indent : Nat
deriving DecidableEq, Repr

/-- A task together with the children the tree builder attached to it. -/
inductive TaskTree where
  | node : Task → List TaskTree → TaskTree

/-- The task stored at the root of a tree. -/
def rootTask : TaskTree → Task
  | .node t _ => t

/-- The `while (stack.length > 0 && top.indent >= task.indent) pop()` loop
of `buildGroupTasks` (`taskParser.ts` lines 69-71), in store-passing form:
a popped frame is finalized into a `TaskTree` and attached to the frame
below it (or to the roots when the stack empties), which is exactly where
the mutable original had already attached it at push time. -/
def popWhile (ind : Nat) (roots : List TaskTree) :
    List (Task × List TaskTree) → List TaskTree × List (Task × List TaskTree)
  | [] => (roots, [])
  | (t, cs) :: rest =>
    if ind ≤ t.indent then
      match rest with
      | [] => (roots ++ [TaskTree.node t cs], [])
      | (p, pcs) :: rest' =>
        popWhile ind roots ((p, pcs ++ [TaskTree.node t cs]) :: rest')
    else (roots, (t, cs) :: rest)
termination_by l => l.length
decreasing_by simp

/-- Finalize the frames remaining on the stack after the input is
exhausted (the mutable original needs no such pass because it attaches
nodes at push time; attachment targets are identical). -/
def drainStack (roots : List TaskTree) :
    List (Task × List TaskTree) → List TaskTree
  | [] => roots
  | (t, cs) :: rest =>
    match rest with
    | [] => roots ++ [TaskTree.node t cs]
    | (p, pcs) :: rest' =>
      drainStack roots ((p, pcs ++ [TaskTree.node t cs]) :: rest')
termination_by l => l.length
decreasing_by simp

/-- The `for (const task of flatTasks)` loop of `buildGroupTasks`
(`taskParser.ts` lines 68-79). -/
def buildLoop : List TaskTree → List (Task × List TaskTree) → List Task →
    List TaskTree
  | roots, stack, [] => drainStack roots stack
  | roots, stack, t :: ts =>
    buildLoop (popWhile t.indent roots stack).1
      ((t, []) :: (popWhile t.indent roots stack).2) ts

/-- The root forest produced by the indentation-stack algorithm of
`buildGroupTasks`. -/
def buildForest (flatTasks : List Task) : List TaskTree :=
  buildLoop [] [] flatTasks

/-- Reference recursive formulation: a task's children are built from the
maximal following run of strictly deeper items.  Proved equal to
`buildForest` below; all structural reasoning goes through this form. -/
def buildRec : List Task → List TaskTree
  | [] => []
  | t :: ts =>
    TaskTree.node t (buildRec (ts.takeWhile fun u => t.indent < u.indent)) ::
      buildRec (ts.dropWhile fun u => t.indent < u.indent)
termination_by l => l.length
decreasing_by
  · have := (List.takeWhile_sublist (l := ts)
      fun u => decide (t.indent < u.indent)).length_le
    simp only [List.length_cons]
    omega
  · have := (List.dropWhile_sublist (l := ts)
      fun u => decide (t.indent < u.indent)).length_le
    simp only [List.length_cons]
    omega

mutual

/-- Open-task count of a tree, every node counted by its own flag (the
`walk` of `taskParser.ts` lines 87-96). -/
def openCountTree : TaskTree → Nat
  | .node t cs => (if t.completed then 0 else 1) + openCountList cs

/-- Open-task count of a forest. -/
def openCountList : List TaskTree → Nat
  | [] => 0
  | c :: cs => openCountTree c + openCountList cs

end

mutual

/-- Completed-task count of a tree, every node counted by its own flag. -/
def completedCountTree : TaskTree → Nat
  | .node t cs => (if t.completed then 1 else 0) + completedCountList cs

/-- Completed-task count of a forest. -/
def completedCountList : List TaskTree → Nat
  | [] => 0
  | c :: cs => completedCountTree c + completedCountList cs

end

/-- The root partition loop of `buildGroupTasks` (`taskParser.ts` lines
98-104): each root goes to one bucket by its own completed flag. -/
def partitionRoots : List TaskTree → List TaskTree × List TaskTree
  | [] => ([], [])
  | r :: rest =>
    if (rootTask r).completed then
      ((partitionRoots rest).1, r :: (partitionRoots rest).2)
    else
      (r :: (partitionRoots rest).1, (partitionRoots rest).2)

/-- Return value of `buildGroupTasks`. -/
structure GroupResult where
  openTasks : List TaskTree
  completedTasks : List TaskTree
  openCount : Nat
  completedCount : Nat

/-- `buildGroupTasks` (`taskParser.ts` lines 59-110): build the forest,
split the roots by their own completed flag, and count open/completed
over the whole forest. -/
def buildGroupTasks (flatTasks : List Task) : GroupResult :=
  { openTasks := (partitionRoots (buildForest flatTasks)).1
    completedTasks := (partitionRoots (buildForest flatTasks)).2
    openCount := openCountList (buildForest flatTasks)
    completedCount := completedCountList (buildForest flatTasks) }

/-! ## Equivalence of the stack loop with the recursive reference builder -/

theorem popWhile_append (ind : Nat) (stack : List (Task × List TaskTree)) :
    ∀ r0 r, popWhile ind (r0 ++ r) stack
      = (r0 ++ (popWhile ind r stack).1, (popWhile ind r stack).2) := by
  induction stack using popWhile.induct ind [] with
  | case1 => intro r0 r; simp [popWhile]
  | case2 p pcs h => intro r0 r; simp [popWhile, if_pos h]
  | case3 p pcs h p1 pcs1 rest' ih =>
    intro r0 r
    have hl : popWhile ind (r0 ++ r) ((p, pcs) :: (p1, pcs1) :: rest')
        = popWhile ind (r0 ++ r) ((p1, pcs1 ++ [TaskTree.node p pcs]) :: rest') := by
      rw [popWhile, if_pos h]
    have hr : popWhile ind r ((p, pcs) :: (p1, pcs1) :: rest')
        = popWhile ind r ((p1, pcs1 ++ [TaskTree.node p pcs]) :: rest') := by
      rw [popWhile, if_pos h]
    rw [hl, hr, ih]
  | case4 p pcs rest' h =>
    intro r0 r
    match rest' with
    | [] => rw [popWhile.eq_2, popWhile.eq_2, if_neg h, if_neg h]
    | (p1, pcs1) :: rest'' => rw [popWhile.eq_3, popWhile.eq_3, if_neg h, if_neg h]

theorem drainStack_append (stack : List (Task × List TaskTree)) :
    ∀ r0 r, drainStack (r0 ++ r) stack = r0 ++ drainStack r stack := by
  induction stack using drainStack.induct [] with
  | case1 => intro r0 r; simp [drainStack]
  | case2 p pcs => intro r0 r; simp [drainStack]
  | case3 p pcs p1 pcs1 rest' ih =>
    intro r0 r
    have hl : drainStack (r0 ++ r) ((p, pcs) :: (p1, pcs1) :: rest')
        = drainStack (r0 ++ r) ((p1, pcs1 ++ [TaskTree.node p pcs]) :: rest') := by
      rw [drainStack]
    have hr : drainStack r ((p, pcs) :: (p1, pcs1) :: rest')
        = drainStack r ((p1, pcs1 ++ [TaskTree.node p pcs]) :: rest') := by
      rw [drainStack]
    rw [hl, hr, ih]

theorem buildLoop_append (input : List Task) :
    ∀ (stack : List (Task × List TaskTree)) (r0 r : List TaskTree),
    buildLoop (r0 ++ r) stack input = r0 ++ buildLoop r stack input := by
  induction input with
  | nil => intro stack r0 r; rw [buildLoop, buildLoop]; exact drainStack_append stack r0 r
  | cons t ts ih =>
    intro stack r0 r
    rw [buildLoop, buildLoop, popWhile_append]
    exact ih _ _ _

/-- Popping the top frame onto the frame below commutes with resuming the
loop, provided the next input (if any) will trigger that pop. -/
theorem buildLoop_popTop (roots : List TaskTree) (u : Task) (cu : List TaskTree)
    (t : Task) (cs : List TaskTree) (stack : List (Task × List TaskTree))
    (input : List Task)
    (hcond : input = [] ∨ ∃ v rest, input = v :: rest ∧ v.indent ≤ u.indent) :
    buildLoop roots ((u, cu) :: (t, cs) :: stack) input
      = buildLoop roots ((t, cs ++ [TaskTree.node u cu]) :: stack) input := by
  rcases hcond with rfl | ⟨v, rest, rfl, hv⟩
  · rw [buildLoop, buildLoop]
    conv_lhs => rw [drainStack]
  · rw [buildLoop, buildLoop]
    have hpop : popWhile v.indent roots ((u, cu) :: (t, cs) :: stack)
        = popWhile v.indent roots ((t, cs ++ [TaskTree.node u cu]) :: stack) := by
      rw [popWhile, if_pos hv]
    rw [hpop]

/-- Popping the only frame onto the root list commutes with resuming the
loop, provided the next input (if any) will trigger that pop. -/
theorem buildLoop_popBottom (roots : List TaskTree) (u : Task)
    (cu : List TaskTree) (input : List Task)
    (hcond : input = [] ∨ ∃ v rest, input = v :: rest ∧ v.indent ≤ u.indent) :
    buildLoop roots [(u, cu)] input
      = buildLoop (roots ++ [TaskTree.node u cu]) [] input := by
  rcases hcond with rfl | ⟨v, rest, rfl, hv⟩
  · rw [buildLoop, buildLoop]
    conv_lhs => rw [drainStack]
    rw [drainStack]
  · rw [buildLoop, buildLoop]
    have hpop : popWhile v.indent roots [(u, cu)]
        = (roots ++ [TaskTree.node u cu], []) := by
      rw [popWhile, if_pos hv]
    have hpop' : popWhile v.indent (roots ++ [TaskTree.node u cu]) []
        = (roots ++ [TaskTree.node u cu], []) := by
      rw [popWhile]
    rw [hpop, hpop']

theorem dropWhile_head_le (t : Task) {l : List Task} {v : Task}
    {rest : List Task}
    (h : l.dropWhile (fun u => t.indent < u.indent) = v :: rest) :
    v.indent ≤ t.indent := by
  have hh := List.head?_dropWhile_not (fun u => decide (t.indent < u.indent)) l
  rw [h] at hh
  simp at hh
  omega

/-- Core lemma: consuming a run of strictly deeper tasks from a frame
`(t, cs)` ends with exactly the forest of that run appended to `t`'s
children, as long as the following input starts at `t`'s indent or
shallower. -/
theorem buildLoop_deep (d : Nat) :
    ∀ ts : List Task, ts.length ≤ d →
    ∀ (t : Task) (cs : List TaskTree) (stack : List (Task × List TaskTree))
      (roots : List TaskTree) (rest : List Task),
    (∀ u ∈ ts, t.indent < u.indent) →
    (rest = [] ∨ ∃ v rest', rest = v :: rest' ∧ v.indent ≤ t.indent) →
    buildLoop roots ((t, cs) :: stack) (ts ++ rest)
      = buildLoop roots ((t, cs ++ buildRec ts) :: stack) rest := by
  induction d with
  | zero =>
    intro ts hlen
    have hts : ts = [] := List.length_eq_zero.mp (by omega)
    subst hts
    intro t cs stack roots rest _ _
    simp [buildRec]
  | succ d ih =>
    intro ts hlen t cs stack roots rest hdeep hrest
    match ts with
    | [] => simp [buildRec]
    | u :: ts' =>
      have hu : t.indent < u.indent := hdeep u (List.mem_cons_self u ts')
      have hlen' : ts'.length ≤ d := by simp at hlen; omega
      rw [List.cons_append, buildLoop]
      have hpop : popWhile u.indent roots ((t, cs) :: stack)
          = (roots, (t, cs) :: stack) := by
        match stack with
        | [] => rw [popWhile.eq_2, if_neg (by omega)]
        | (p1, pcs1) :: rest'' => rw [popWhile.eq_3, if_neg (by omega)]
      rw [hpop]
      have hts' : ts' = ts'.takeWhile (fun w => u.indent < w.indent)
          ++ ts'.dropWhile (fun w => u.indent < w.indent) :=
        (List.takeWhile_append_dropWhile _ _).symm
      have hdlen : (ts'.takeWhile (fun w => u.indent < w.indent)).length ≤ d := by
        have := (List.takeWhile_sublist (l := ts')
          fun w => decide (u.indent < w.indent)).length_le
        omega
      have hrlen : (ts'.dropWhile (fun w => u.indent < w.indent)).length ≤ d := by
        have := (List.dropWhile_sublist (l := ts')
          fun w => decide (u.indent < w.indent)).length_le
        omega
      have hcond2 : ts'.dropWhile (fun w => u.indent < w.indent) ++ rest = [] ∨
          ∃ v rest', ts'.dropWhile (fun w => u.indent < w.indent) ++ rest
            = v :: rest' ∧ v.indent ≤ u.indent := by
        cases hdw : ts'.dropWhile (fun w => u.indent < w.indent) with
        | nil =>
          rcases hrest with rfl | ⟨v, rest', rfl, hv⟩
          · left; rfl
          · right; exact ⟨v, rest', rfl, by omega⟩
        | cons w ws =>
          right
          exact ⟨w, ws ++ rest, by simp, dropWhile_head_le u hdw⟩
      have hinput : ts' ++ rest
          = ts'.takeWhile (fun w => u.indent < w.indent)
            ++ (ts'.dropWhile (fun w => u.indent < w.indent) ++ rest) := by
        conv_lhs => rw [hts']
        rw [List.append_assoc]
      rw [hinput]
      rw [ih (ts'.takeWhile (fun w => u.indent < w.indent)) hdlen u []
        ((t, cs) :: stack) roots
        (ts'.dropWhile (fun w => u.indent < w.indent) ++ rest)
        (fun w hw => by
          have := List.mem_takeWhile_imp hw
          simpa using this)
        hcond2]
      rw [List.nil_append]
      rw [buildLoop_popTop roots u
        (buildRec (ts'.takeWhile fun w => u.indent < w.indent)) t cs stack
        (ts'.dropWhile (fun w => u.indent < w.indent) ++ rest) hcond2]
      rw [ih (ts'.dropWhile (fun w => u.indent < w.indent)) hrlen t
        (cs ++ [TaskTree.node u
          (buildRec (ts'.takeWhile fun w => u.indent < w.indent))])
        stack roots rest
        (fun w hw => hdeep w (by
          rw [List.mem_cons]
          right
          rw [hts']
          exact List.mem_append_right _ hw))
        hrest]
      rw [buildRec]
      rw [List.append_assoc]
      rfl

/-- The stack-machine builder agrees with the recursive reference
builder. -/
theorem buildForest_eq_aux (d : Nat) :
    ∀ ts : List Task, ts.length ≤ d → buildLoop [] [] ts = buildRec ts := by
  induction d with
  | zero =>
    intro ts hlen
    have hts : ts = [] := List.length_eq_zero.mp (by omega)
    subst hts
    simp [buildLoop, drainStack, buildRec]
  | succ d ih =>
    intro ts hlen
    match ts with
    | [] => simp [buildLoop, drainStack, buildRec]
    | t :: ts' =>
      have hlen' : ts'.length ≤ d := by simp at hlen; omega
      rw [buildLoop]
      have hpop : popWhile t.indent ([] : List TaskTree) [] = ([], []) := by
        rw [popWhile]
      rw [hpop]
      have hts' : ts' = ts'.takeWhile (fun w => t.indent < w.indent)
          ++ ts'.dropWhile (fun w => t.indent < w.indent) :=
        (List.takeWhile_append_dropWhile _ _).symm
      have hdlen : (ts'.takeWhile (fun w => t.indent < w.indent)).length ≤ d := by
        have := (List.takeWhile_sublist (l := ts')
          fun w => decide (t.indent < w.indent)).length_le
        omega
      have hrlen : (ts'.dropWhile (fun w => t.indent < w.indent)).length ≤ d := by
        have := (List.dropWhile_sublist (l := ts')
          fun w => decide (t.indent < w.indent)).length_le
        omega
      have hcond : ts'.dropWhile (fun w => t.indent < w.indent) = [] ∨
          ∃ v rest', ts'.dropWhile (fun w => t.indent < w.indent)
            = v :: rest' ∧ v.indent ≤ t.indent := by
        cases hdw : ts'.dropWhile (fun w => t.indent < w.indent) with
        | nil => left; rfl
        | cons w ws => right; exact ⟨w, ws, rfl, dropWhile_head_le t hdw⟩
      conv_lhs => rw [hts']
      rw [buildLoop_deep (ts'.takeWhile (fun w => t.indent < w.indent)).length
        (ts'.takeWhile (fun w => t.indent < w.indent)) le_rfl t [] [] []
        (ts'.dropWhile (fun w => t.indent < w.indent))
        (fun w hw => by
          have := List.mem_takeWhile_imp hw
          simpa using this)
        hcond]
      rw [List.nil_append]
      rw [buildLoop_popBottom [] t
        (buildRec (ts'.takeWhile fun w => t.indent < w.indent))
        (ts'.dropWhile (fun w => t.indent < w.indent)) hcond]
      rw [List.nil_append]
      have happ := buildLoop_append
        (ts'.dropWhile (fun w => t.indent < w.indent)) []
        [TaskTree.node t (buildRec (ts'.takeWhile fun w => t.indent < w.indent))]
        []
      rw [List.append_nil] at happ
      rw [happ, ih _ hrlen, buildRec]
      rfl

theorem buildForest_eq_buildRec (ts : List Task) :
    buildForest ts = buildRec ts :=
  buildForest_eq_aux ts.length ts le_rfl

/-! ## Counting (C3) and root bucketing (C6) -/

mutual

/-- All tasks of a tree in preorder. -/
def treeFlat : TaskTree → List Task
  | .node t cs => t :: forestFlat cs

/-- All tasks of a forest in preorder. -/
def forestFlat : List TaskTree → List Task
  | [] => []
  | c :: cs => treeFlat c ++ forestFlat cs

end

theorem forestFlat_buildRec (d : Nat) :
    ∀ ts : List Task, ts.length ≤ d → forestFlat (buildRec ts) = ts := by
  induction d with
  | zero =>
    intro ts hlen
    have hts : ts = [] := List.length_eq_zero.mp (by omega)
    subst hts
    simp [buildRec, forestFlat]
  | succ d ih =>
    intro ts hlen
    match ts with
    | [] => simp [buildRec, forestFlat]
    | t :: ts' =>
      have hlen' : ts'.length ≤ d := by simp at hlen; omega
      have hdlen : (ts'.takeWhile (fun w => t.indent < w.indent)).length ≤ d := by
        have := (List.takeWhile_sublist (l := ts')
          fun w => decide (t.indent < w.indent)).length_le
        omega
      have hrlen : (ts'.dropWhile (fun w => t.indent < w.indent)).length ≤ d := by
        have := (List.dropWhile_sublist (l := ts')
          fun w => decide (t.indent < w.indent)).length_le
        omega
      rw [buildRec, forestFlat, treeFlat, ih _ hdlen, ih _ hrlen]
      simp [List.takeWhile_append_dropWhile]

theorem counts_buildRec (d : Nat) :
    ∀ ts : List Task, ts.length ≤ d →
    openCountList (buildRec ts) + completedCountList (buildRec ts)
      = ts.length := by
  induction d with
  | zero =>
    intro ts hlen
    have hts : ts = [] := List.length_eq_zero.mp (by omega)
    subst hts
    simp [buildRec, openCountList, completedCountList]
  | succ d ih =>
    intro ts hlen
    match ts with
    | [] => simp [buildRec, openCountList, completedCountList]
    | t :: ts' =>
      have hlen' : ts'.length ≤ d := by simp at hlen; omega
      have hdlen : (ts'.takeWhile (fun w => t.indent < w.indent)).length ≤ d := by
        have := (List.takeWhile_sublist (l := ts')
          fun w => decide (t.indent < w.indent)).length_le
        omega
      have hrlen : (ts'.dropWhile (fun w => t.indent < w.indent)).length ≤ d := by
        have := (List.dropWhile_sublist (l := ts')
          fun w => decide (t.indent < w.indent)).length_le
        omega
      have hsplit : (ts'.takeWhile (fun w => t.indent < w.indent)).length
          + (ts'.dropWhile (fun w => t.indent < w.indent)).length
          = ts'.length := by
        conv_rhs => rw [← List.takeWhile_append_dropWhile
          (fun w => decide (t.indent < w.indent)) ts']
        rw [List.length_append]
      have h1 := ih _ hdlen
      have h2 := ih _ hrlen
      rw [buildRec, openCountList, completedCountList, openCountTree,
        completedCountTree]
      simp only [List.length_cons]
      by_cases hc : t.completed <;> simp [hc] <;> omega

/-- **C3.** For every input list, the builder's `openCount` plus
`completedCount` equals the number of tasks fed in: every task is counted
exactly once, root or descendant. -/
theorem buildGroupTasks_count_consistency (flatTasks : List Task) :
    (buildGroupTasks flatTasks).openCount
      + (buildGroupTasks flatTasks).completedCount = flatTasks.length := by
  show openCountList (buildForest flatTasks)
    + completedCountList (buildForest flatTasks) = flatTasks.length
  rw [buildForest_eq_buildRec]
  exact counts_buildRec flatTasks.length flatTasks le_rfl

theorem partitionRoots_eq_filter (roots : List TaskTree) :
    partitionRoots roots
      = (roots.filter (fun r => !(rootTask r).completed),
         roots.filter (fun r => (rootTask r).completed)) := by
  induction roots with
  | nil => rfl
  | cons r rest ih =>
    by_cases hc : (rootTask r).completed <;>
      simp [partitionRoots, List.filter, hc, ih]

/-- **C6.** Roots are bucketed into `openTasks`/`completedTasks` by the
root task's own completed flag only: a root belongs to `completedTasks`
exactly when its own flag is set, regardless of its descendants (a
completed root with open descendants still goes to `completedTasks`), and
independently of the descendant-inclusive counts. -/
theorem buildGroupTasks_root_bucketing (flatTasks : List Task) :
    ((buildGroupTasks flatTasks).openTasks
      = (buildForest flatTasks).filter (fun r => !(rootTask r).completed)) ∧
    ((buildGroupTasks flatTasks).completedTasks
      = (buildForest flatTasks).filter (fun r => (rootTask r).completed)) ∧
    (∀ r, r ∈ (buildGroupTasks flatTasks).openTasks ↔
      r ∈ buildForest flatTasks ∧ (rootTask r).completed = false) ∧
    (∀ r, r ∈ (buildGroupTasks flatTasks).completedTasks ↔
      r ∈ buildForest flatTasks ∧ (rootTask r).completed = true) := by
  have h1 : (buildGroupTasks flatTasks).openTasks
      = (buildForest flatTasks).filter (fun r => !(rootTask r).completed) := by
    show (partitionRoots (buildForest flatTasks)).1 = _
    rw [partitionRoots_eq_filter]
  have h2 : (buildGroupTasks flatTasks).completedTasks
      = (buildForest flatTasks).filter (fun r => (rootTask r).completed) := by
    show (partitionRoots (buildForest flatTasks)).2 = _
    rw [partitionRoots_eq_filter]
  refine ⟨h1, h2, ?_, ?_⟩
  · intro r
    rw [h1, List.mem_filter]
    simp
  · intro r
    rw [h2, List.mem_filter]

/-! ## The parent/child characterization (C1) -/

/-- The root tasks of a forest, in order. -/
def rootTasks (f : List TaskTree) : List Task :=
  f.map rootTask

mutual

/-- All (parent, child) task pairs of a tree. -/
def childPairsTree : TaskTree → List (Task × Task)
  | .node t cs => cs.map (fun c => (t, rootTask c)) ++ childPairsList cs

/-- All (parent, child) task pairs of a forest. -/
def childPairsList : List TaskTree → List (Task × Task)
  | [] => []
  | c :: cs => childPairsTree c ++ childPairsList cs

end

/-- `b` is attached as a direct child of `a` somewhere in the forest. -/
def ChildIn (f : List TaskTree) (a b : Task) : Prop :=
  (a, b) ∈ childPairsList f

/-- The input sequence is in strict line order (the caller feeds the
builder the document's tasks top to bottom). -/
def LineOrdered (ts : List Task) : Prop :=
  ts.Pairwise (fun x y => x.line < y.line)

/-- `a` is the nearest item preceding `b` with smaller indent, with no
item between them at `a`'s indent or shallower: the claimed parent. -/
def NearestParent (ts : List Task) (a b : Task) : Prop :=
  a ∈ ts ∧ b ∈ ts ∧ a.line < b.line ∧ a.indent < b.indent ∧
    ∀ c ∈ ts, a.line < c.line → c.line < b.line → b.indent ≤ c.indent

instance decLineOrdered (ts : List Task) : Decidable (LineOrdered ts) :=
  inferInstanceAs (Decidable (List.Pairwise (fun x y : Task => x.line < y.line) ts))

theorem line_inj {ts : List Task} (hord : LineOrdered ts) {a b : Task}
    (ha : a ∈ ts) (hb : b ∈ ts) (hline : a.line = b.line) : a = b := by
  obtain ⟨i, hi, rfl⟩ := List.mem_iff_getElem.mp ha
  obtain ⟨j, hj, rfl⟩ := List.mem_iff_getElem.mp hb
  have hp := List.pairwise_iff_getElem.mp hord
  rcases Nat.lt_trichotomy i j with h | h | h
  · have := hp i j hi hj h; omega
  · subst h; rfl
  · have := hp j i hj hi h; omega

/-- A task is a root of the built forest exactly when no earlier task has
a strictly smaller indent. -/
theorem buildRec_root_iff (d : Nat) :
    ∀ ts : List Task, ts.length ≤ d → LineOrdered ts →
    ∀ b, b ∈ rootTasks (buildRec ts) ↔
      (b ∈ ts ∧ ∀ a ∈ ts, a.line < b.line → b.indent ≤ a.indent) := by
  induction d with
  | zero =>
    intro ts hlen _ b
    have hts : ts = [] := List.length_eq_zero.mp (by omega)
    subst hts
    simp [buildRec, rootTasks]
  | succ d ih =>
    intro ts hlen hord b
    match ts with
    | [] => simp [buildRec, rootTasks]
    | t :: ts' =>
      set deep := ts'.takeWhile (fun w => t.indent < w.indent) with hdeep_def
      set restt := ts'.dropWhile (fun w => t.indent < w.indent) with hrest_def
      have hts' : ts' = deep ++ restt := by
        rw [hdeep_def, hrest_def, List.takeWhile_append_dropWhile]
      have hlen' : ts'.length ≤ d := by simp at hlen; omega
      have hrlen : restt.length ≤ d := by
        have := (List.dropWhile_sublist (l := ts')
          fun w => decide (t.indent < w.indent)).length_le
        rw [hrest_def]
        omega
      have hord' : LineOrdered ts' := hord.of_cons
      have htlt : ∀ a ∈ ts', t.line < a.line := (List.pairwise_cons.mp hord).1
      have hsplit := List.pairwise_append.mp (show LineOrdered (deep ++ restt) by
        rw [← hts']; exact hord')
      have hdeep_ind : ∀ a ∈ deep, t.indent < a.indent := by
        intro a ha
        rw [hdeep_def] at ha
        have := List.mem_takeWhile_imp ha
        simpa using this
      have hroots : rootTasks (buildRec (t :: ts'))
          = t :: rootTasks (buildRec restt) := by
        rw [buildRec, ← hdeep_def, ← hrest_def]
        simp [rootTasks, rootTask]
      rw [hroots]
      constructor
      · intro hb
        rcases List.mem_cons.mp hb with rfl | hbr
        · refine ⟨List.mem_cons_self _ _, ?_⟩
          intro a ha hlt
          rcases List.mem_cons.mp ha with rfl | ha'
          · omega
          · have := htlt a ha'; omega
        · obtain ⟨hbrest, hcond⟩ := (ih restt hrlen hsplit.2.1 b).mp hbr
          have hble : b.indent ≤ t.indent := by
            cases hrw : restt with
            | nil => rw [hrw] at hbrest; simp at hbrest
            | cons w ws =>
              have hwle : w.indent ≤ t.indent :=
                dropWhile_head_le t (by rw [← hrest_def]; exact hrw)
              rw [hrw] at hbrest
              rcases List.mem_cons.mp hbrest with rfl | hbws
              · exact hwle
              · have hpw : ∀ x ∈ ws, w.line < x.line :=
                  (List.pairwise_cons.mp (hrw ▸ hsplit.2.1)).1
                have := hcond w (by rw [hrw]; exact List.mem_cons_self _ _)
                  (hpw b hbws)
                omega
          refine ⟨?_, ?_⟩
          · rw [List.mem_cons]; right; rw [hts']
            exact List.mem_append_right _ hbrest
          · intro a ha hlt
            rcases List.mem_cons.mp ha with rfl | ha'
            · exact hble
            · rw [hts'] at ha'
              rcases List.mem_append.mp ha' with had | har
              · have := hdeep_ind a had; omega
              · exact hcond a har hlt
      · rintro ⟨hb, hcond⟩
        rcases List.mem_cons.mp hb with rfl | hb'
        · exact List.mem_cons_self _ _
        · have htlb : t.line < b.line := htlt b hb'
          have hble : b.indent ≤ t.indent :=
            hcond t (List.mem_cons_self _ _) htlb
          have hbrest : b ∈ restt := by
            rw [hts'] at hb'
            rcases List.mem_append.mp hb' with hbd | hbr
            · have := hdeep_ind b hbd; omega
            · exact hbr
          rw [List.mem_cons]; right
          refine (ih restt hrlen hsplit.2.1 b).mpr ⟨hbrest, ?_⟩
          intro a ha hlt
          refine hcond a ?_ hlt
          rw [List.mem_cons]; right; rw [hts']
          exact List.mem_append_right _ ha

/-- Central characterization: `b` hangs directly under `a` in the built
forest exactly when `a` is `b`'s nearest preceding shallower item. -/
theorem buildRec_child_iff (d : Nat) :
    ∀ ts : List Task, ts.length ≤ d → LineOrdered ts →
    ∀ a b, ChildIn (buildRec ts) a b ↔ NearestParent ts a b := by
  induction d with
  | zero =>
    intro ts hlen _ a b
    have hts : ts = [] := List.length_eq_zero.mp (by omega)
    subst hts
    simp [buildRec, ChildIn, childPairsList, NearestParent]
  | succ d ih =>
    intro ts hlen hord a b
    match ts with
    | [] => simp [buildRec, ChildIn, childPairsList, NearestParent]
    | t :: ts' =>
      set deep := ts'.takeWhile (fun w => t.indent < w.indent) with hdeep_def
      set restt := ts'.dropWhile (fun w => t.indent < w.indent) with hrest_def
      have hts' : ts' = deep ++ restt := by
        rw [hdeep_def, hrest_def, List.takeWhile_append_dropWhile]
      have hlen' : ts'.length ≤ d := by simp at hlen; omega
      have hdlen : deep.length ≤ d := by
        have := (List.takeWhile_sublist (l := ts')
          fun w => decide (t.indent < w.indent)).length_le
        rw [hdeep_def]
        omega
      have hrlen : restt.length ≤ d := by
        have := (List.dropWhile_sublist (l := ts')
          fun w => decide (t.indent < w.indent)).length_le
        rw [hrest_def]
        omega
      have hord' : LineOrdered ts' := hord.of_cons
      have htlt : ∀ x ∈ ts', t.line < x.line := (List.pairwise_cons.mp hord).1
      have hsplit := List.pairwise_append.mp (show LineOrdered (deep ++ restt) by
        rw [← hts']; exact hord')
      have hLOdeep : LineOrdered deep := hsplit.1
      have hLOrest : LineOrdered restt := hsplit.2.1
      have hdr : ∀ x ∈ deep, ∀ y ∈ restt, x.line < y.line := hsplit.2.2
      have hdeep_ind : ∀ x ∈ deep, t.indent < x.indent := by
        intro x hx
        rw [hdeep_def] at hx
        have := List.mem_takeWhile_imp hx
        simpa using this
      have hmem_d : ∀ x ∈ deep, x ∈ t :: ts' := by
        intro x hx
        rw [List.mem_cons]; right; rw [hts']
        exact List.mem_append_left _ hx
      have hmem_r : ∀ x ∈ restt, x ∈ t :: ts' := by
        intro x hx
        rw [List.mem_cons]; right; rw [hts']
        exact List.mem_append_right _ hx
      have hpairs : ChildIn (buildRec (t :: ts')) a b ↔
          ((a = t ∧ b ∈ rootTasks (buildRec deep)) ∨
            ChildIn (buildRec deep) a b ∨ ChildIn (buildRec restt) a b) := by
        rw [show ChildIn (buildRec (t :: ts')) a b =
            ((a, b) ∈ childPairsList (buildRec (t :: ts'))) from rfl,
          buildRec, ← hdeep_def, ← hrest_def, childPairsList, childPairsTree]
        constructor
        · intro h
          rcases List.mem_append.mp h with h1 | h3
          · rcases List.mem_append.mp h1 with h1a | h2
            · left
              obtain ⟨c, hc, heq⟩ := List.mem_map.mp h1a
              rw [Prod.mk.injEq] at heq
              exact ⟨heq.1.symm, heq.2 ▸ List.mem_map.mpr ⟨c, hc, rfl⟩⟩
            · right; left; exact h2
          · right; right; exact h3
        · intro h
          rcases h with ⟨rfl, hb⟩ | h2 | h3
          · refine List.mem_append.mpr (Or.inl (List.mem_append.mpr (Or.inl ?_)))
            obtain ⟨c, hc, hceq⟩ := List.mem_map.mp hb
            exact List.mem_map.mpr ⟨c, hc, by rw [hceq]⟩
          · exact List.mem_append.mpr (Or.inl (List.mem_append.mpr (Or.inr h2)))
          · exact List.mem_append.mpr (Or.inr h3)
      rw [hpairs]
      have hroot_iff := buildRec_root_iff deep.length deep le_rfl hLOdeep b
      constructor
      · intro h
        rcases h with ⟨rfl, hb⟩ | h2 | h3
        · obtain ⟨hbdeep, hbcond⟩ := hroot_iff.mp hb
          refine ⟨List.mem_cons_self _ _, hmem_d b hbdeep,
            htlt b (by rw [hts']; exact List.mem_append_left _ hbdeep),
            hdeep_ind b hbdeep, ?_⟩
          intro c hc hlt1 hlt2
          rcases List.mem_cons.mp hc with rfl | hc'
          · omega
          · rw [hts'] at hc'
            rcases List.mem_append.mp hc' with hcd | hcr
            · exact hbcond c hcd hlt2
            · have := hdr b hbdeep c hcr; omega
        · obtain ⟨hadeep, hbdeep, hline, hind, hcond⟩ := (ih deep hdlen hLOdeep a b).mp h2
          refine ⟨hmem_d a hadeep, hmem_d b hbdeep, hline, hind, ?_⟩
          intro c hc hlt1 hlt2
          rcases List.mem_cons.mp hc with rfl | hc'
          · have := htlt a (by rw [hts']; exact List.mem_append_left _ hadeep)
            omega
          · rw [hts'] at hc'
            rcases List.mem_append.mp hc' with hcd | hcr
            · exact hcond c hcd hlt1 hlt2
            · have := hdr b hbdeep c hcr; omega
        · obtain ⟨harest, hbrest, hline, hind, hcond⟩ := (ih restt hrlen hLOrest a b).mp h3
          refine ⟨hmem_r a harest, hmem_r b hbrest, hline, hind, ?_⟩
          intro c hc hlt1 hlt2
          rcases List.mem_cons.mp hc with rfl | hc'
          · have := htlt a (by rw [hts']; exact List.mem_append_right _ harest)
            omega
          · rw [hts'] at hc'
            rcases List.mem_append.mp hc' with hcd | hcr
            · have := hdr c hcd a harest; omega
            · exact hcond c hcr hlt1 hlt2
      · rintro ⟨ha, hb, hline, hind, hcond⟩
        have hbne : b ≠ t := by
          intro hbt
          subst hbt
          rcases List.mem_cons.mp ha with rfl | ha'
          · omega
          · have := htlt a ha'; omega
        have hb' : b ∈ ts' := by
          rcases List.mem_cons.mp hb with rfl | h
          · exact absurd rfl hbne
          · exact h
        have hnotrest : (a = t ∨ a ∈ deep) → b ∈ restt → t.indent < b.indent →
            False := by
          intro hapos hbrest hbt
          cases hrw : restt with
          | nil => rw [hrw] at hbrest; simp at hbrest
          | cons w ws =>
            have hwle : w.indent ≤ t.indent :=
              dropWhile_head_le t (by rw [← hrest_def]; exact hrw)
            have hwrest : w ∈ restt := by rw [hrw]; exact List.mem_cons_self _ _
            have hwts' : w ∈ ts' := by
              rw [hts']; exact List.mem_append_right _ hwrest
            have htw : t.line < w.line := htlt w hwts'
            rw [hrw] at hbrest
            rcases List.mem_cons.mp hbrest with rfl | hbws
            · omega
            · have hwline : w.line < b.line :=
                (List.pairwise_cons.mp (hrw ▸ hLOrest)).1 b hbws
              have haw : a.line < w.line := by
                rcases hapos with rfl | hadeep
                · exact htw
                · exact hdr a hadeep w hwrest
              have hwb : b.indent ≤ w.indent :=
                hcond w (List.mem_cons.mpr (Or.inr hwts')) haw hwline
              omega
        rcases List.mem_cons.mp ha with rfl | ha'
        · -- parent is the head: b must be a root of the deep run
          have hbdeep : b ∈ deep := by
            rw [hts'] at hb'
            rcases List.mem_append.mp hb' with h | h
            · exact h
            · exact (hnotrest (Or.inl rfl) h hind).elim
          left
          refine ⟨rfl, hroot_iff.mpr ⟨hbdeep, ?_⟩⟩
          intro x hx hxb
          exact hcond x (hmem_d x hx)
            (htlt x (by rw [hts']; exact List.mem_append_left _ hx)) hxb
        · rw [hts'] at ha'
          rcases List.mem_append.mp ha' with hadeep | harest
          · -- parent inside the deep run: child is too
            have hbdeep : b ∈ deep := by
              rw [hts'] at hb'
              rcases List.mem_append.mp hb' with h | h
              · exact h
              · have hta : t.indent < a.indent := hdeep_ind a hadeep
                exact (hnotrest (Or.inr hadeep) h (by omega)).elim
            right; left
            refine (ih deep hdlen hLOdeep a b).mpr
              ⟨hadeep, hbdeep, hline, hind, ?_⟩
            intro c hc hlt1 hlt2
            exact hcond c (hmem_d c hc) hlt1 hlt2
          · -- parent inside the tail run: child is too
            have hbrest : b ∈ restt := by
              rw [hts'] at hb'
              rcases List.mem_append.mp hb' with h | h
              · have := hdr b h a harest; omega
              · exact h
            right; right
            refine (ih restt hrlen hLOrest a b).mpr
              ⟨harest, hbrest, hline, hind, ?_⟩
            intro c hc hlt1 hlt2
            exact hcond c (hmem_r c hc) hlt1 hlt2

theorem transGen_indent_lt {F : List TaskTree} {x y : Task}
    (hstep : ∀ a b, ChildIn F a b → a.indent < b.indent)
    (h : Relation.TransGen (ChildIn F) x y) : x.indent < y.indent := by
  induction h with
  | single h1 => exact hstep _ _ h1
  | tail _ h2 ih => exact lt_trans ih (hstep _ _ h2)

/-- **C1.** For a line-ordered input, the builder forest places `b` under
`a` exactly when `a` is the nearest preceding item of smaller indent with
no interrupting item at or below `a`'s indent; consequently a child's
indent is strictly greater than its parent's, a child comes after its
parent and before the parent's next sibling, and equal-indent items are
never nested inside one another (same-indent items below a common
shallower item end up siblings via the characterization). -/
theorem buildForest_indent_hierarchy (ts : List Task) (hord : LineOrdered ts) :
    (∀ a b, ChildIn (buildForest ts) a b ↔ NearestParent ts a b) ∧
    (∀ a b, ChildIn (buildForest ts) a b →
      a.indent < b.indent ∧ a.line < b.line) ∧
    (∀ p a a' b, ChildIn (buildForest ts) p a → ChildIn (buildForest ts) p a' →
      a.line < a'.line → ChildIn (buildForest ts) a b → b.line < a'.line) ∧
    (∀ b b', b.indent = b'.indent →
      ¬ Relation.TransGen (ChildIn (buildForest ts)) b b') := by
  have hchar : ∀ a b, ChildIn (buildForest ts) a b ↔ NearestParent ts a b := by
    intro a b
    rw [buildForest_eq_buildRec]
    exact buildRec_child_iff ts.length ts le_rfl hord a b
  have hcons : ∀ a b, ChildIn (buildForest ts) a b →
      a.indent < b.indent ∧ a.line < b.line := by
    intro a b h
    obtain ⟨-, -, h1, h2, -⟩ := (hchar a b).mp h
    exact ⟨h2, h1⟩
  refine ⟨hchar, hcons, ?_, ?_⟩
  · intro p a a' b hpa hpa' haa' hab
    obtain ⟨-, hamem, hpa_line, -, -⟩ := (hchar p a).mp hpa
    obtain ⟨-, ha'mem, -, -, hcond'⟩ := (hchar p a').mp hpa'
    obtain ⟨-, hbmem, -, hab_ind, hcond⟩ := (hchar a b).mp hab
    have h1 : a'.indent ≤ a.indent := hcond' a hamem hpa_line haa'
    by_contra hcontra
    push_neg at hcontra
    rcases Nat.eq_or_lt_of_le hcontra with heq | hlt2
    · have hba : a' = b := line_inj hord ha'mem hbmem heq
      subst hba
      omega
    · have := hcond a' ha'mem haa' hlt2
      omega
  · intro b b' hind htg
    have := transGen_indent_lt (fun a b h => (hcons a b h).1) htg
    omega

/-- A concrete three-task input: a root with two equal-indent children. -/
def sampleTasks : List Task :=
  [⟨"one".data, 1, false, 0⟩, ⟨"two".data, 2, true, 2⟩,
    ⟨"three".data, 3, false, 2⟩]

/-- Closed witness for `buildForest_indent_hierarchy` at a concrete
line-ordered input. -/
theorem buildForest_indent_hierarchy_witness :
    LineOrdered sampleTasks ∧
    ((∀ a b, ChildIn (buildForest sampleTasks) a b ↔
        NearestParent sampleTasks a b) ∧
     (∀ a b, ChildIn (buildForest sampleTasks) a b →
        a.indent < b.indent ∧ a.line < b.line) ∧
     (∀ p a a' b, ChildIn (buildForest sampleTasks) p a →
        ChildIn (buildForest sampleTasks) p a' → a.line < a'.line →
        ChildIn (buildForest sampleTasks) a b → b.line < a'.line) ∧
     (∀ b b', b.indent = b'.indent →
        ¬ Relation.TransGen (ChildIn (buildForest sampleTasks)) b b')) :=
  ⟨by decide, buildForest_indent_hierarchy sampleTasks (by decide)⟩

/-! ## The toggle operation (C4, C5)

The document content is a list of characters; `splitLines`/`joinLines`
model JavaScript `content.split("\n")` / `lines.join("\n")`, and the two
`replace` calls of `toggleTask` are modelled as first-match rewriters. -/

/-- `content.split("\n")`: splitting `""` yields `[""]`, every `'\n'`
starts a new (possibly empty) line. -/
def splitLines : List Char → List (List Char)
  | [] => [[]]
  | c :: rest =>
    if c = '\n' then [] :: splitLines rest
    else
      match splitLines rest with
      | [] => [[c]]
      | l :: ls => (c :: l) :: ls

/-- `lines.join("\n")`. -/
def joinLines : List (List Char) → List Char
  | [] => []
  | [l] => l
  | l :: ls => l ++ '\n' :: joinLines ls

theorem joinLines_cons_cons (l l2 : List Char) (ls : List (List Char)) :
    joinLines (l :: l2 :: ls) = l ++ '\n' :: joinLines (l2 :: ls) := rfl

theorem splitLines_ne_nil (s : List Char) : splitLines s ≠ [] := by
  match s with
  | [] => simp [splitLines]
  | c :: rest =>
    by_cases h : c = '\n'
    · simp [splitLines, h]
    · rw [splitLines, if_neg h]
      cases hsp : splitLines rest <;> simp

theorem joinLines_splitLines (s : List Char) : joinLines (splitLines s) = s := by
  induction s with
  | nil => rfl
  | cons c rest ih =>
    by_cases h : c = '\n'
    · subst h
      rw [splitLines, if_pos rfl]
      cases hsp : splitLines rest with
      | nil => exact absurd hsp (splitLines_ne_nil rest)
      | cons l ls =>
        rw [hsp] at ih
        show joinLines ([] :: l :: ls) = '\n' :: rest
        rw [joinLines_cons_cons, List.nil_append, ih]
    · rw [splitLines, if_neg h]
      cases hsp : splitLines rest with
      | nil => exact absurd hsp (splitLines_ne_nil rest)
      | cons l ls =>
        rw [hsp] at ih
        cases ls with
        | nil =>
          show joinLines [c :: l] = c :: rest
          rw [joinLines]
          rw [show joinLines [l] = l from rfl] at ih
          rw [ih]
        | cons l2 ls2 =>
          show joinLines ((c :: l) :: l2 :: ls2) = c :: rest
          rw [joinLines_cons_cons] at ih ⊢
          rw [List.cons_append, ih]

theorem splitLines_no_newline (s : List Char) :
    ∀ l ∈ splitLines s, '\n' ∉ l := by
  induction s with
  | nil =>
    intro l hl
    simp [splitLines] at hl
    simp [hl]
  | cons c rest ih =>
    intro l hl
    by_cases h : c = '\n'
    · rw [splitLines, if_pos h] at hl
      rcases List.mem_cons.mp hl with rfl | hl'
      · simp
      · exact ih l hl'
    · rw [splitLines, if_neg h] at hl
      cases hsp : splitLines rest with
      | nil => exact absurd hsp (splitLines_ne_nil rest)
      | cons l0 ls =>
        rw [hsp] at hl
        rcases List.mem_cons.mp hl with rfl | hl'
        · intro hmem
          rcases List.mem_cons.mp hmem with heq | hmem'
          · exact h heq.symm
          · exact ih l0 (by rw [hsp]; exact List.mem_cons_self _ _) hmem'
        · exact ih l (by rw [hsp]; exact List.mem_cons.mpr (Or.inr hl'))

theorem splitLines_single (l : List Char) (h : '\n' ∉ l) :
    splitLines l = [l] := by
  induction l with
  | nil => rfl
  | cons c rest ih =>
    have hc : ¬ c = '\n' := fun hc => h (by rw [hc]; exact List.mem_cons_self _ _)
    rw [splitLines, if_neg hc, ih (fun hm => h (List.mem_cons.mpr (Or.inr hm)))]

theorem splitLines_append (l s : List Char) (h : '\n' ∉ l) :
    splitLines (l ++ '\n' :: s) = l :: splitLines s := by
  induction l with
  | nil => rw [List.nil_append, splitLines, if_pos rfl]
  | cons c rest ih =>
    have hc : ¬ c = '\n' := fun hc => h (by rw [hc]; exact List.mem_cons_self _ _)
    rw [List.cons_append, splitLines, if_neg hc,
      ih (fun hm => h (List.mem_cons.mpr (Or.inr hm)))]

theorem splitLines_joinLines (ls : List (List Char)) (hne : ls ≠ [])
    (hnl : ∀ l ∈ ls, '\n' ∉ l) : splitLines (joinLines ls) = ls := by
  induction ls with
  | nil => exact absurd rfl hne
  | cons l ls2 ih =>
    cases ls2 with
    | nil =>
      show splitLines (joinLines [l]) = [l]
      rw [show joinLines [l] = l from rfl]
      exact splitLines_single l (hnl l (List.mem_cons_self _ _))
    | cons l2 ls3 =>
      show splitLines (joinLines (l :: l2 :: ls3)) = l :: l2 :: ls3
      rw [joinLines_cons_cons,
        splitLines_append _ _ (hnl l (List.mem_cons_self _ _)),
        ih (by simp) (fun x hx => hnl x (List.mem_cons.mpr (Or.inr hx)))]

theorem list_set_self {α : Type} (l : List α) (i : Nat) (h : i < l.length) :
    l.set i (l.get ⟨i, h⟩) = l := by
  apply List.ext_getElem
  · simp
  · intro n h1 h2
    rw [List.getElem_set]
    by_cases hn : i = n
    · subst hn; simp
    · simp [hn]

/-- The characters JavaScript regex `.` does not match. -/
def isRegexDot (c : Char) : Bool :=
  !(c == '\n' || c == '\r' || c == Char.ofNat 0x2028 || c == Char.ofNat 0x2029)

/-- `line.replace(/\[.\]/, "[ ]")`: rewrite the first bracketed
single-character occurrence to an open checkbox. -/
def replaceBoxAny : List Char → List Char
  | [] => []
  | a :: rest =>
    match rest with
    | c :: b :: rest' =>
      if a == '[' && isRegexDot c && b == ']' then '[' :: ' ' :: ']' :: rest'
      else a :: replaceBoxAny rest
    | _ => a :: replaceBoxAny rest

/-- `line.replace(/\[ \]/, "[x]")`: rewrite the first open checkbox to a
checked one. -/
def replaceBoxSpace : List Char → List Char
  | [] => []
  | a :: rest =>
    match rest with
    | c :: b :: rest' =>
      if a == '[' && c == ' ' && b == ']' then '[' :: 'x' :: ']' :: rest'
      else a :: replaceBoxSpace rest
    | _ => a :: replaceBoxSpace rest

/-- The line rewrite `toggleTask` applies, chosen by the task's current
completion state (`TaskPanelView.ts` lines 288-295). -/
def toggleLine (completed : Bool) (l : List Char) : List Char :=
  if completed then replaceBoxAny l else replaceBoxSpace l

/-- `toggleTask` (`TaskPanelView.ts` lines 280-299): read the content,
split into lines, bail out if the task's line is gone, otherwise rewrite
that line's checkbox and write the joined content back.  `none` models
"returns without writing"; `some c` models writing `c`. -/
def toggleTask (task : Task) (content : List Char) : Option (List Char) :=
  match (splitLines content).get? task.line with
  | none => none
  | some line =>
    some (joinLines ((splitLines content).set task.line
      (toggleLine task.completed line)))

/-- A bracketed dot-matched character occurs somewhere in the line. -/
def hasBoxAny : List Char → Bool
  | a :: c :: b :: rest =>
    (a == '[' && isRegexDot c && b == ']') || hasBoxAny (c :: b :: rest)
  | _ => false

/-- The new line differs from the old one in at most the single bracketed
checkbox character: either nothing changed, or exactly one bracketed
character was rewritten to `' '` (when the task was completed) or to
`'x'` (when it was open, in which case the old character was a space). -/
def CheckboxOnlyDiff (completed : Bool) (oldL newL : List Char) : Prop :=
  newL = oldL ∨
  ∃ pre c post, oldL = pre ++ '[' :: c :: ']' :: post ∧
    newL = pre ++ '[' :: (if completed then ' ' else 'x') :: ']' :: post ∧
    (completed = false → c = ' ')

theorem replaceBoxSpace_diff (l : List Char) :
    CheckboxOnlyDiff false l (replaceBoxSpace l) := by
  induction l with
  | nil => left; rfl
  | cons a rest ih =>
    rcases rest with _ | ⟨c, rest1⟩
    · left; rfl
    rcases rest1 with _ | ⟨b, rest'⟩
    · left; rfl
    by_cases hcond : (a == '[' && c == ' ' && b == ']') = true
    · right
      have h3 := hcond
      simp only [Bool.and_eq_true, beq_iff_eq] at h3
      obtain ⟨⟨ha, hc⟩, hb⟩ := h3
      subst ha; subst hc; subst hb
      refine ⟨[], ' ', rest', rfl, ?_, fun _ => rfl⟩
      show replaceBoxSpace ('[' :: ' ' :: ']' :: rest') = _
      rw [replaceBoxSpace]
      simp
    · have hstep : replaceBoxSpace (a :: c :: b :: rest')
          = a :: replaceBoxSpace (c :: b :: rest') := by
        rw [replaceBoxSpace, if_neg hcond]
      rw [hstep]
      rcases ih with h | ⟨pre, c0, post, h1, h2, h3⟩
      · left; rw [h]
      · right
        exact ⟨a :: pre, c0, post, by rw [List.cons_append, ← h1],
          by rw [List.cons_append, ← h2], h3⟩

theorem replaceBoxAny_diff (l : List Char) :
    CheckboxOnlyDiff true l (replaceBoxAny l) := by
  induction l with
  | nil => left; rfl
  | cons a rest ih =>
    rcases rest with _ | ⟨c, rest1⟩
    · left; rfl
    rcases rest1 with _ | ⟨b, rest'⟩
    · left; rfl
    by_cases hcond : (a == '[' && isRegexDot c && b == ']') = true
    · right
      have h3 := hcond
      simp only [Bool.and_eq_true, beq_iff_eq] at h3
      obtain ⟨⟨ha, hc⟩, hb⟩ := h3
      subst ha; subst hb
      refine ⟨[], c, rest', rfl, ?_, fun h => nomatch h⟩
      show replaceBoxAny ('[' :: c :: ']' :: rest') = _
      rw [replaceBoxAny]
      simp [hc]
    · have hstep : replaceBoxAny (a :: c :: b :: rest')
          = a :: replaceBoxAny (c :: b :: rest') := by
        rw [replaceBoxAny, if_neg hcond]
      rw [hstep]
      rcases ih with h | ⟨pre, c0, post, h1, h2, h3⟩
      · left; rw [h]
      · right
        exact ⟨a :: pre, c0, post, by rw [List.cons_append, ← h1],
          by rw [List.cons_append, ← h2], h3⟩

theorem toggleLine_diff (completed : Bool) (l : List Char) :
    CheckboxOnlyDiff completed l (toggleLine completed l) := by
  cases completed
  · exact replaceBoxSpace_diff l
  · exact replaceBoxAny_diff l

theorem toggleLine_no_newline (completed : Bool) {l : List Char}
    (h : '\n' ∉ l) : '\n' ∉ toggleLine completed l := by
  rcases toggleLine_diff completed l with heq | ⟨pre, c, post, h1, h2, h3⟩
  · rw [heq]; exact h
  · rw [h1] at h
    rw [h2]
    intro hmem
    rcases List.mem_append.mp hmem with hp | hq
    · exact h (List.mem_append.mpr (Or.inl hp))
    · rcases List.mem_cons.mp hq with he | hq2
      · exact absurd he (by decide)
      · rcases List.mem_cons.mp hq2 with he2 | hq3
        · cases completed <;> simp at he2
        · rcases List.mem_cons.mp hq3 with he3 | hq4
          · exact absurd he3 (by decide)
          · exact h (List.mem_append.mpr (Or.inr
              (List.mem_cons.mpr (Or.inr (List.mem_cons.mpr (Or.inr
                (List.mem_cons.mpr (Or.inr hq4))))))))

theorem hasBoxAny_tail {a : Char} {rest : List Char}
    (h : hasBoxAny (a :: rest) = false) : hasBoxAny rest = false := by
  match rest with
  | [] => rfl
  | [c] => rfl
  | c :: b :: rest'' =>
    rw [hasBoxAny] at h
    exact (Bool.or_eq_false_iff.mp h).2

theorem hasBoxAny_head {a c b : Char} {rest : List Char}
    (h : hasBoxAny (a :: c :: b :: rest) = false) :
    (a == '[' && isRegexDot c && b == ']') = false := by
  rw [hasBoxAny] at h
  exact (Bool.or_eq_false_iff.mp h).1

/-- With no bracketed character before it, the open checkbox is exactly
what `replace(/\[ \]/, "[x]")` rewrites. -/
theorem replaceBoxSpace_at (post : List Char) :
    ∀ pre : List Char, hasBoxAny pre = false →
    replaceBoxSpace (pre ++ '[' :: ' ' :: ']' :: post)
      = pre ++ '[' :: 'x' :: ']' :: post := by
  intro pre
  induction pre with
  | nil =>
    intro _
    show replaceBoxSpace ('[' :: ' ' :: ']' :: post) = _
    rw [replaceBoxSpace]
    simp
  | cons a pre' ih =>
    intro hpre
    have ih' := ih (hasBoxAny_tail hpre)
    rcases pre' with _ | ⟨b0, pre''⟩
    · show replaceBoxSpace (a :: '[' :: ' ' :: ']' :: post)
        = a :: '[' :: 'x' :: ']' :: post
      rw [replaceBoxSpace, if_neg (by simp)]
      simp only [List.nil_append] at ih'
      rw [ih']
    · rcases pre'' with _ | ⟨c0, pre'''⟩
      · show replaceBoxSpace (a :: b0 :: '[' :: ' ' :: ']' :: post)
          = a :: b0 :: '[' :: 'x' :: ']' :: post
        rw [replaceBoxSpace, if_neg (by simp)]
        rw [show [b0] ++ '[' :: ' ' :: ']' :: post
          = b0 :: '[' :: ' ' :: ']' :: post from rfl] at ih'
        rw [ih']
        rfl
      · have hch := hasBoxAny_head hpre
        have hcond : (a == '[' && b0 == ' ' && c0 == ']') = false := by
          by_contra hcon
          rw [Bool.not_eq_false] at hcon
          simp only [Bool.and_eq_true, beq_iff_eq] at hcon
          obtain ⟨⟨ha, hb0⟩, hc0⟩ := hcon
          subst ha; subst hb0; subst hc0
          exact absurd hch (by simp [isRegexDot])
        simp only [List.cons_append] at ih' ⊢
        rw [replaceBoxSpace, if_neg (by rw [hcond]; simp)]
        rw [ih']

/-- With no bracketed character before it, a bracketed checkbox character
(other than `']'`) is exactly what `replace(/\[.\]/, "[ ]")` rewrites. -/
theorem replaceBoxAny_at (post : List Char) (ch : Char)
    (hdot : isRegexDot ch = true) (hne : ch ≠ ']') :
    ∀ pre : List Char, hasBoxAny pre = false →
    replaceBoxAny (pre ++ '[' :: ch :: ']' :: post)
      = pre ++ '[' :: ' ' :: ']' :: post := by
  intro pre
  induction pre with
  | nil =>
    intro _
    show replaceBoxAny ('[' :: ch :: ']' :: post) = _
    rw [replaceBoxAny]
    simp [hdot]
  | cons a pre' ih =>
    intro hpre
    have ih' := ih (hasBoxAny_tail hpre)
    rcases pre' with _ | ⟨b0, pre''⟩
    · show replaceBoxAny (a :: '[' :: ch :: ']' :: post)
        = a :: '[' :: ' ' :: ']' :: post
      have hcond : (a == '[' && isRegexDot '[' && ch == ']') = false := by
        have : (ch == ']') = false := by
          rw [beq_eq_false_iff_ne]
          exact hne
        rw [this]
        simp
      rw [replaceBoxAny, if_neg (by rw [hcond]; simp)]
      simp only [List.nil_append] at ih'
      rw [ih']
    · rcases pre'' with _ | ⟨c0, pre'''⟩
      · show replaceBoxAny (a :: b0 :: '[' :: ch :: ']' :: post)
          = a :: b0 :: '[' :: ' ' :: ']' :: post
        rw [replaceBoxAny, if_neg (by simp)]
        rw [show [b0] ++ '[' :: ch :: ']' :: post
          = b0 :: '[' :: ch :: ']' :: post from rfl] at ih'
        rw [ih']
        rfl
      · have hch := hasBoxAny_head hpre
        simp only [List.cons_append] at ih' ⊢
        rw [replaceBoxAny, if_neg (by rw [hch]; simp)]
        rw [ih']

/-- **C4.** A toggle is a no-op (no write) exactly when the task's line is
gone from the current content; otherwise the written content agrees with
the read content on every other line, and the rewritten line differs only
in the single bracketed checkbox character, which becomes `'x'` for an
open task and a space for a completed one. -/
theorem toggleTask_frame (task : Task) (content : List Char) :
    (toggleTask task content = none ↔
      (splitLines content).length ≤ task.line) ∧
    (∀ out, toggleTask task content = some out →
      splitLines out = (splitLines content).set task.line
        (toggleLine task.completed ((splitLines content).getD task.line [])) ∧
      CheckboxOnlyDiff task.completed
        ((splitLines content).getD task.line [])
        (toggleLine task.completed ((splitLines content).getD task.line []))) := by
  constructor
  · cases hget : (splitLines content).get? task.line with
    | none =>
      simp only [toggleTask, hget]
      simp only [true_iff]
      exact List.get?_eq_none.mp hget
    | some line =>
      simp only [toggleTask, hget]
      obtain ⟨hlt, -⟩ := List.get?_eq_some.mp hget
      exact iff_of_false (by simp) (by omega)
  · intro out hout
    cases hget : (splitLines content).get? task.line with
    | none =>
      simp only [toggleTask, hget] at hout
      exact Option.noConfusion hout
    | some line =>
      obtain ⟨hlt, -⟩ := List.get?_eq_some.mp hget
      have hlineD : (splitLines content).getD task.line [] = line := by
        rw [List.getD_eq_getElem?_getD, ← List.get?_eq_getElem?, hget]
        rfl
      simp only [toggleTask, hget, Option.some.injEq] at hout
      subst hout
      rw [hlineD]
      refine ⟨?_, toggleLine_diff task.completed line⟩
      rw [splitLines_joinLines]
      · intro hemp
        have hlen : (splitLines content).length = 0 := by
          have hc := congrArg List.length hemp
          rw [List.length_set, List.length_nil] at hc
          exact hc
        omega
      · intro l hl
        rcases List.mem_or_eq_of_mem_set hl with hmem | heq
        · exact splitLines_no_newline content l hmem
        · rw [heq]
          exact toggleLine_no_newline task.completed
            (splitLines_no_newline content line (List.get?_mem hget))

/-- A concrete open task on line 1 of a two-line document. -/
def sampleToggleTask : Task :=
  { text := ['a'], line := 1, completed := false, indent := 0 }

/-- A concrete document: a heading-less first line, then an open task. -/
def sampleContent : List Char := "x\n- [ ] a".data

/-- The document after checking the sample task. -/
def sampleOut : List Char := "x\n- [x] a".data

/-- Closed witness for `toggleTask_frame` at a concrete document. -/
theorem toggleTask_frame_witness :
    toggleTask sampleToggleTask sampleContent = some sampleOut ∧
    (splitLines sampleOut
        = (splitLines sampleContent).set sampleToggleTask.line
          (toggleLine sampleToggleTask.completed
            ((splitLines sampleContent).getD sampleToggleTask.line [])) ∧
      CheckboxOnlyDiff sampleToggleTask.completed
        ((splitLines sampleContent).getD sampleToggleTask.line [])
        (toggleLine sampleToggleTask.completed
          ((splitLines sampleContent).getD sampleToggleTask.line []))) :=
  ⟨by decide, (toggleTask_frame sampleToggleTask sampleContent).2 sampleOut
    (by decide)⟩

/-- **C5.** Toggling an open task and then toggling it back restores the
document byte for byte, for any task line of the shape
`pre ++ "[ ]" ++ post` whose prefix contains no other bracketed
character — i.e. whenever the two rewrites touch only the checkbox
character. -/
theorem toggleTask_roundtrip (task : Task) (content out1 out2 : List Char)
    (hopen : task.completed = false) (pre post : List Char)
    (hline : (splitLines content).getD task.line []
      = pre ++ '[' :: ' ' :: ']' :: post)
    (hpre : hasBoxAny pre = false)
    (h1 : toggleTask task content = some out1)
    (h2 : toggleTask { task with completed := true } out1 = some out2) :
    out2 = content := by
  cases hget : (splitLines content).get? task.line with
  | none =>
    simp only [toggleTask, hget] at h1
    exact Option.noConfusion h1
  | some line =>
    obtain ⟨hlt, -⟩ := List.get?_eq_some.mp hget
    have hlineD : (splitLines content).getD task.line [] = line := by
      rw [List.getD_eq_getElem?_getD, ← List.get?_eq_getElem?, hget]
      rfl
    rw [hlineD] at hline
    simp only [toggleTask, hget, Option.some.injEq] at h1
    have hnl_line : '\n' ∉ line :=
      splitLines_no_newline content line (List.get?_mem hget)
    have ht1 : toggleLine task.completed line
        = pre ++ '[' :: 'x' :: ']' :: post := by
      rw [hopen]
      show replaceBoxSpace line = _
      rw [hline]
      exact replaceBoxSpace_at post pre hpre
    have hnl_new : '\n' ∉ pre ++ '[' :: 'x' :: ']' :: post := by
      rw [hline] at hnl_line
      intro hmem
      rcases List.mem_append.mp hmem with hp | hq
      · exact hnl_line (List.mem_append.mpr (Or.inl hp))
      · rcases List.mem_cons.mp hq with he | hq2
        · exact absurd he (by decide)
        · rcases List.mem_cons.mp hq2 with he2 | hq3
          · exact absurd he2 (by decide)
          · rcases List.mem_cons.mp hq3 with he3 | hq4
            · exact absurd he3 (by decide)
            · exact hnl_line (List.mem_append.mpr (Or.inr
                (List.mem_cons.mpr (Or.inr (List.mem_cons.mpr (Or.inr
                  (List.mem_cons.mpr (Or.inr hq4))))))))
    have hsplit1 : splitLines out1
        = (splitLines content).set task.line
          (pre ++ '[' :: 'x' :: ']' :: post) := by
      rw [← h1, ht1, splitLines_joinLines]
      · intro hemp
        have hlen : (splitLines content).length = 0 := by
          have hc := congrArg List.length hemp
          rw [List.length_set, List.length_nil] at hc
          exact hc
        omega
      · intro l hl
        rcases List.mem_or_eq_of_mem_set hl with hmem | heq
        · exact splitLines_no_newline content l hmem
        · rw [heq]; exact hnl_new
    have hget2 : (splitLines out1).get? task.line
        = some (pre ++ '[' :: 'x' :: ']' :: post) := by
      rw [hsplit1, List.get?_eq_getElem?, List.getElem?_set_self]
      exact hlt
    have htask2 : ({ task with completed := true } : Task).line = task.line :=
      rfl
    rw [toggleTask, htask2] at h2
    rw [hget2] at h2
    simp only [Option.some.injEq] at h2
    have ht2 : toggleLine ({ task with completed := true } : Task).completed
        (pre ++ '[' :: 'x' :: ']' :: post)
        = pre ++ '[' :: ' ' :: ']' :: post := by
      show replaceBoxAny _ = _
      exact replaceBoxAny_at post 'x' (by decide) (by decide) pre hpre
    rw [ht2, hsplit1, List.set_set, ← hline] at h2
    have hself : (splitLines content).set task.line line
        = splitLines content := by
      have hgetl : (splitLines content).get ⟨task.line, hlt⟩ = line :=
        (List.get?_eq_some.mp hget).2
      rw [← hgetl]
      exact list_set_self _ _ hlt
    rw [hself, joinLines_splitLines] at h2
    exact h2.symm

/-- Closed witness for `toggleTask_roundtrip` at a concrete document:
checking then unchecking the sample task restores the original bytes. -/
theorem toggleTask_roundtrip_witness :
    toggleTask sampleToggleTask sampleContent = some sampleOut ∧
    toggleTask { sampleToggleTask with completed := true } sampleOut
      = some sampleContent ∧
    sampleContent = sampleContent :=
  ⟨by decide, by decide,
    toggleTask_roundtrip sampleToggleTask sampleContent sampleOut sampleContent
      (by decide) "- ".data " a".data (by decide) (by decide) (by decide)
      (by decide)⟩

/-! ## The parse orchestrator (C7, C8, C9) -/

/-- A cached list item: `position.start.line`, `position.start.col`, and
the checkbox character (`undefined` = not a checkbox item). -/
structure ListItemCache where
  startLine : Nat
  startCol : Nat
  task : Option Char
deriving DecidableEq, Repr

/-- The slice of the metadata cache `parseTasks` consumes; `listItems`
is optional (`cache?.listItems`), as is `headings` (`cache.headings ?? []`). -/
structure FileCache where
  listItems : Option (List ListItemCache)
  headings : Option (List HeadingCache)

/-- The no-heading sentinel group key. -/
def NO_HEADING : String := "(No heading)"

/-- JavaScript `\s` (as used by `.replace(/^\s*[-*+]\s*\[.\]\s*/, "")`
and `.trim()`). -/
def isJsWhitespace (c : Char) : Bool :=
  c == ' ' || c == '\t' || c == '\n' || c == '\r' || c == Char.ofNat 0x0b ||
  c == Char.ofNat 0x0c || c == Char.ofNat 0xa0 || c == Char.ofNat 0x1680 ||
  (0x2000 ≤ c.toNat && c.toNat ≤ 0x200a) ||
  c == Char.ofNat 0x2028 || c == Char.ofNat 0x2029 || c == Char.ofNat 0x202f ||
  c == Char.ofNat 0x205f || c == Char.ofNat 0x3000 || c == Char.ofNat 0xfeff

/-- `lineText.replace(/^\s*[-*+]\s*\[.\]\s*/, "")`: strip the leading
whitespace, bullet, checkbox and following whitespace; if the anchored
pattern does not match, the line is returned unchanged. -/
def stripTaskMarker (l : List Char) : List Char :=
  match l.dropWhile isJsWhitespace with
  | b :: s2 =>
    if b == '-' || b == '*' || b == '+' then
      match s2.dropWhile isJsWhitespace with
      | '[' :: c :: ']' :: s4 =>
        if isRegexDot c then s4.dropWhile isJsWhitespace else l
      | _ => l
    else l
  | [] => l

/-- JavaScript `String.prototype.trim`. -/
def jsTrim (l : List Char) : List Char :=
  ((l.dropWhile isJsWhitespace).reverse.dropWhile isJsWhitespace).reverse

/-- One output group (the `TaskGroup` interface): `headingLine` is `-1`
for the no-heading sentinel, hence an `Int`. -/
structure TaskGroup where
  heading : String
  headingLine : Int
  openTasks : List TaskTree
  completedTasks : List TaskTree
  openCount : Nat
  completedCount : Nat

/-- The `ParseResult` interface. -/
structure ParseResult where
  groups : List TaskGroup
  totalOpen : Nat
  totalCompleted : Nat

/-- `groupMap` update: push the task onto the existing entry for `key`
(keeping its original `headingLine`), or append a fresh entry at the end —
a JavaScript `Map` iterates in insertion order. -/
def addTask (key : String) (hl : Int) (task : Task) :
    List (String × Int × List Task) → List (String × Int × List Task)
  | [] => [(key, hl, [task])]
  | (k, h, ts) :: rest =>
    if k = key then (k, h, ts ++ [task]) :: rest
    else (k, h, ts) :: addTask key hl task rest

/-- One iteration of the `for (const item of cache.listItems)` loop of
`parseTasks` (`taskParser.ts` lines 130-158): skip non-checkbox items,
skip items whose line is gone, skip empty-after-strip items, and file the
rest under their enclosing heading. -/
def processItem (lines : List (List Char)) (headings : List HeadingCache)
    (m : List (String × Int × List Task)) (item : ListItemCache) :
    List (String × Int × List Task) :=
  match item.task with
  | none => m
  | some taskChar =>
    match lines.get? item.startLine with
    | none => m
    | some lineText =>
      if jsTrim (stripTaskMarker lineText) = [] then m
      else
        match findParentHeading item.startLine headings with
        | some hd =>
          addTask hd.1 (Int.ofNat hd.2)
            { text := jsTrim (stripTaskMarker lineText), line := item.startLine,
              completed := taskChar != ' ', indent := item.startCol } m
        | none =>
          addTask NO_HEADING (-1)
            { text := jsTrim (stripTaskMarker lineText), line := item.startLine,
              completed := taskChar != ' ', indent := item.startCol } m

/-- Build one `TaskGroup` from a map entry via `buildGroupTasks`. -/
def mkGroup (e : String × Int × List Task) : TaskGroup :=
  { heading := e.1
    headingLine := e.2.1
    openTasks := (buildGroupTasks e.2.2).openTasks
    completedTasks := (buildGroupTasks e.2.2).completedTasks
    openCount := (buildGroupTasks e.2.2).openCount
    completedCount := (buildGroupTasks e.2.2).completedCount }

/-- The comparator `(a, b) => a.headingLine - b.headingLine`. -/
def groupLe (a b : TaskGroup) : Bool :=
  a.headingLine ≤ b.headingLine

/-- `parseTasks` (`taskParser.ts` lines 116-180). -/
def parseTasks (cache : Option FileCache) (content : List Char) :
    ParseResult :=
  match cache with
  | none => { groups := [], totalOpen := 0, totalCompleted := 0 }
  | some c =>
    match c.listItems with
    | none => { groups := [], totalOpen := 0, totalCompleted := 0 }
    | some items =>
      let m := items.foldl
        (processItem (splitLines content) (c.headings.getD [])) []
      { groups := (m.map mkGroup).mergeSort groupLe
        totalOpen := ((m.map mkGroup).map TaskGroup.openCount).sum
        totalCompleted := ((m.map mkGroup).map TaskGroup.completedCount).sum }

/-- **C9.** With no list-item information at all (no cache, or a cache
without list items), `parseTasks` returns the empty result: no groups and
zero totals. -/
theorem parseTasks_no_listItems :
    (∀ content, parseTasks none content
      = { groups := [], totalOpen := 0, totalCompleted := 0 }) ∧
    (∀ hs content,
      parseTasks (some { listItems := none, headings := hs }) content
        = { groups := [], totalOpen := 0, totalCompleted := 0 }) :=
  ⟨fun _ => rfl, fun _ _ => rfl⟩

/-- **C8.** A checkbox item whose cached line no longer exists in the
content is skipped silently: the parse result is exactly the result of
parsing without that item, so every other item is processed as it would
have been otherwise. -/
theorem parseTasks_skips_missing_line (hs : Option (List HeadingCache))
    (content : List Char) (pre post : List ListItemCache)
    (bad : ListItemCache) (_hbad_task : bad.task.isSome = true)
    (hbad : (splitLines content).length ≤ bad.startLine) :
    parseTasks
        (some { listItems := some (pre ++ bad :: post), headings := hs })
        content
      = parseTasks (some { listItems := some (pre ++ post), headings := hs })
          content := by
  have hskip : ∀ m, processItem (splitLines content) (hs.getD []) m bad = m := by
    intro m
    rw [processItem]
    cases htask : bad.task with
    | none => rfl
    | some c =>
      have hnone : (splitLines content).get? bad.startLine = none :=
        List.get?_eq_none.mpr hbad
      rw [hnone]
  have hfold : (pre ++ bad :: post).foldl
        (processItem (splitLines content) (hs.getD [])) []
      = (pre ++ post).foldl
        (processItem (splitLines content) (hs.getD [])) [] := by
    rw [List.foldl_append, List.foldl_append, List.foldl_cons, hskip]
  simp only [parseTasks, hfold]

/-- Closed witness for `parseTasks_skips_missing_line`: a stale item
pointing past the end of a one-line document is dropped, the other item
survives. -/
theorem parseTasks_skips_missing_line_witness :
    (splitLines "- [ ] a".data).length ≤ 7 ∧
    parseTasks
        (some { listItems := some [⟨0, 0, some ' '⟩, ⟨7, 0, some ' '⟩],
                headings := none })
        "- [ ] a".data
      = parseTasks
          (some { listItems := some [⟨0, 0, some ' '⟩], headings := none })
          "- [ ] a".data :=
  ⟨by decide,
    parseTasks_skips_missing_line none "- [ ] a".data [⟨0, 0, some ' '⟩] []
      ⟨7, 0, some ' '⟩ (by decide) (by decide)⟩

/-- Invariant on the accumulated group map: heading lines are at least
`-1`, only the sentinel key carries `-1`, and keys are distinct. -/
def MapInv (m : List (String × Int × List Task)) : Prop :=
  (∀ e ∈ m, -1 ≤ e.2.1) ∧ (∀ e ∈ m, e.2.1 = -1 → e.1 = NO_HEADING) ∧
    (m.map Prod.fst).Nodup

theorem addTask_keys (key : String) (hl : Int) (task : Task) :
    ∀ m x, x ∈ (addTask key hl task m).map Prod.fst →
      x ∈ m.map Prod.fst ∨ x = key := by
  intro m
  induction m with
  | nil =>
    intro x hx
    simp [addTask] at hx
    exact Or.inr hx
  | cons e rest ih =>
    intro x hx
    obtain ⟨k, h, ts⟩ := e
    rw [addTask] at hx
    by_cases hk : k = key
    · rw [if_pos hk] at hx
      simp only [List.map_cons, List.mem_cons] at hx ⊢
      exact Or.inl hx
    · rw [if_neg hk] at hx
      simp only [List.map_cons, List.mem_cons] at hx ⊢
      rcases hx with rfl | hx'
      · exact Or.inl (Or.inl rfl)
      · rcases ih x hx' with h1 | h2
        · exact Or.inl (Or.inr h1)
        · exact Or.inr h2

theorem addTask_inv (key : String) (hl : Int) (task : Task)
    (hhl : -1 ≤ hl) (hkey : hl = -1 → key = NO_HEADING) :
    ∀ m, MapInv m → MapInv (addTask key hl task m) := by
  intro m
  induction m with
  | nil =>
    intro _
    refine ⟨?_, ?_, ?_⟩
    · intro e he
      simp [addTask] at he
      rw [he]
      exact hhl
    · intro e he h1
      simp [addTask] at he
      rw [he] at h1 ⊢
      exact hkey h1
    · simp [addTask]
  | cons e rest ih =>
    intro hinv
    obtain ⟨k, h, ts⟩ := e
    have hinv_rest : MapInv rest :=
      ⟨fun x hx => hinv.1 x (List.mem_cons.mpr (Or.inr hx)),
       fun x hx => hinv.2.1 x (List.mem_cons.mpr (Or.inr hx)),
       (List.nodup_cons.mp (by simpa using hinv.2.2)).2⟩
    rw [addTask]
    by_cases hk : k = key
    · rw [if_pos hk]
      refine ⟨?_, ?_, ?_⟩
      · intro x hx
        rcases List.mem_cons.mp hx with rfl | hx'
        · exact hinv.1 (k, h, ts) (List.mem_cons_self _ _)
        · exact hinv.1 x (List.mem_cons.mpr (Or.inr hx'))
      · intro x hx
        rcases List.mem_cons.mp hx with rfl | hx'
        · exact hinv.2.1 (k, h, ts) (List.mem_cons_self _ _)
        · exact hinv.2.1 x (List.mem_cons.mpr (Or.inr hx'))
      · simpa using hinv.2.2
    · rw [if_neg hk]
      have hrec := ih hinv_rest
      refine ⟨?_, ?_, ?_⟩
      · intro x hx
        rcases List.mem_cons.mp hx with rfl | hx'
        · exact hinv.1 (k, h, ts) (List.mem_cons_self _ _)
        · exact hrec.1 x hx'
      · intro x hx
        rcases List.mem_cons.mp hx with rfl | hx'
        · exact hinv.2.1 (k, h, ts) (List.mem_cons_self _ _)
        · exact hrec.2.1 x hx'
      · rw [List.map_cons, List.nodup_cons]
        refine ⟨?_, hrec.2.2⟩
        intro hkmem
        rcases addTask_keys key hl task rest k hkmem with h1 | h2
        · exact (List.nodup_cons.mp (by simpa using hinv.2.2)).1 h1
        · exact hk h2

theorem processItem_inv (lines : List (List Char))
    (headings : List HeadingCache) (item : ListItemCache) :
    ∀ m, MapInv m → MapInv (processItem lines headings m item) := by
  intro m hinv
  cases htask : item.task with
  | none => simp only [processItem, htask]; exact hinv
  | some c =>
    cases hget : lines.get? item.startLine with
    | none => simp only [processItem, htask, hget]; exact hinv
    | some lineText =>
      by_cases hempty : jsTrim (stripTaskMarker lineText) = []
      · simp only [processItem, htask, hget, if_pos hempty]
        exact hinv
      · simp only [processItem, htask, hget, if_neg hempty]
        cases hfp : findParentHeading item.startLine headings with
        | some hd =>
          simp only [hfp]
          exact addTask_inv hd.1 (Int.ofNat hd.2) _
            (by rw [Int.ofNat_eq_natCast]; omega)
            (fun hcon => by rw [Int.ofNat_eq_natCast] at hcon; omega) m hinv
        | none =>
          simp only [hfp]
          exact addTask_inv NO_HEADING (-1) _ (by omega) (fun _ => rfl) m hinv

theorem foldl_inv (lines : List (List Char)) (headings : List HeadingCache) :
    ∀ (items : List ListItemCache) m, MapInv m →
      MapInv (items.foldl (processItem lines headings) m) := by
  intro items
  induction items with
  | nil => intro m hm; exact hm
  | cons item rest ih =>
    intro m hm
    rw [List.foldl_cons]
    exact ih _ (processItem_inv lines headings item m hm)

/-- **C7.** The groups returned by `parseTasks` are sorted by
`headingLine` ascending, and the no-heading sentinel (`headingLine = -1`)
can only sit in the first position — for every input, whatever order the
group map accumulated them in. -/
theorem parseTasks_group_order (cache : Option FileCache)
    (content : List Char) :
    (parseTasks cache content).groups.Pairwise
      (fun a b => a.headingLine ≤ b.headingLine) ∧
    (∀ i, (h : i < (parseTasks cache content).groups.length) →
      ((parseTasks cache content).groups.get ⟨i, h⟩).headingLine = -1 →
      i = 0) := by
  have htrans : ∀ a b c : TaskGroup, groupLe a b = true → groupLe b c = true →
      groupLe a c = true := by
    intro a b c h1 h2
    simp only [groupLe, decide_eq_true_eq] at h1 h2 ⊢
    omega
  have htotal : ∀ a b : TaskGroup, (groupLe a b || groupLe b a) = true := by
    intro a b
    simp only [groupLe, Bool.or_eq_true, decide_eq_true_eq]
    omega
  match cache with
  | none => exact ⟨List.Pairwise.nil, fun i h => absurd h (Nat.not_lt_zero i)⟩
  | some c =>
    obtain ⟨li, hds⟩ := c
    match li with
    | none =>
      exact ⟨List.Pairwise.nil, fun i h => absurd h (Nat.not_lt_zero i)⟩
    | some items =>
      have hminv : MapInv (items.foldl
          (processItem (splitLines content) (hds.getD [])) []) :=
        foldl_inv _ _ items [] ⟨by simp, by simp, by simp⟩
      set m := items.foldl
        (processItem (splitLines content) (hds.getD [])) [] with hm
      have hsorted : ((m.map mkGroup).mergeSort groupLe).Pairwise
          (fun a b => groupLe a b = true) :=
        List.sorted_mergeSort htrans htotal (m.map mkGroup)
      have hsorted' : ((m.map mkGroup).mergeSort groupLe).Pairwise
          (fun a b => a.headingLine ≤ b.headingLine) := by
        refine hsorted.imp ?_
        intro a b hab
        simpa [groupLe] using hab
      have hperm : ((m.map mkGroup).mergeSort groupLe).Perm (m.map mkGroup) :=
        List.mergeSort_perm (m.map mkGroup) groupLe
      have hge : ∀ g ∈ (m.map mkGroup).mergeSort groupLe,
          -1 ≤ g.headingLine := by
        intro g hg
        have hg' : g ∈ m.map mkGroup := hperm.mem_iff.mp hg
        obtain ⟨e, he, rfl⟩ := List.mem_map.mp hg'
        exact hminv.1 e he
      have hkeys : m.Pairwise (fun e1 e2 => e1.1 ≠ e2.1) := by
        have hnd : (m.map Prod.fst).Pairwise (fun a b => a ≠ b) := hminv.2.2
        rwa [List.pairwise_map] at hnd
      have hnotwo : (m.map mkGroup).Pairwise
          (fun g1 g2 => ¬(g1.headingLine = -1 ∧ g2.headingLine = -1)) := by
        rw [List.pairwise_map]
        refine List.Pairwise.imp_of_mem ?_ hkeys
        intro e1 e2 he1 he2 hne hcon
        exact hne ((hminv.2.1 e1 he1 hcon.1).trans
          (hminv.2.1 e2 he2 hcon.2).symm)
      have hsymm : ∀ {g1 g2 : TaskGroup},
          ¬(g1.headingLine = -1 ∧ g2.headingLine = -1) →
          ¬(g2.headingLine = -1 ∧ g1.headingLine = -1) :=
        fun hne hcon => hne ⟨hcon.2, hcon.1⟩
      have hnotwo' : ((m.map mkGroup).mergeSort groupLe).Pairwise
          (fun g1 g2 => ¬(g1.headingLine = -1 ∧ g2.headingLine = -1)) :=
        (hperm.pairwise_iff hsymm).mpr hnotwo
      refine ⟨hsorted', ?_⟩
      intro i hilen hsent
      have hilen2 : i < ((m.map mkGroup).mergeSort groupLe).length := hilen
      have hsent2 : (((m.map mkGroup).mergeSort groupLe)[i]).headingLine
          = -1 := hsent
      by_contra hi0
      have hipos : 0 < i := Nat.pos_of_ne_zero hi0
      have h0len : 0 < ((m.map mkGroup).mergeSort groupLe).length := by omega
      have hle0 := (List.pairwise_iff_getElem.mp hsorted') 0 i h0len hilen2
        hipos
      have hge0 := hge (((m.map mkGroup).mergeSort groupLe)[0])
        (List.getElem_mem h0len)
      have hboth := (List.pairwise_iff_getElem.mp hnotwo') 0 i h0len hilen2
        hipos
      exact hboth ⟨by omega, hsent2⟩

/-- A concrete two-heading cache and document. -/
def sampleCache : Option FileCache :=
  some { listItems := some [⟨1, 0, some ' '⟩, ⟨3, 0, some 'x'⟩]
         headings := some [⟨"A", 0⟩, ⟨"B", 2⟩] }

/-- The document the sample cache describes. -/
def sampleDoc : List Char := "# A\n- [ ] a\n# B\n- [x] b".data

/-- Closed witness for `parseTasks_group_order` at a concrete document. -/
theorem parseTasks_group_order_witness :
    (parseTasks sampleCache sampleDoc).groups.Pairwise
      (fun a b => a.headingLine ≤ b.headingLine) :=
  (parseTasks_group_order sampleCache sampleDoc).1

end TaskPanel
